import Mathlib

/-!
Shallow embedding of `tools/expected_upstream/ojluni_refresh_files.py`.

The script reads a manifest of import entries, filters the entries whose
destination content is stale (`validate_and_remove_updated_entries`), groups
them by upstream ref (`partition_entries_by_ref`), and, per group, creates
an import commit from an empty tree followed by a merge commit advancing
the branch tip (`merge_files_and_create_commit`), driven by `create_commits`.

Git objects are modelled extensionally: a tree is an association list from
blob path to blob bytes, a commit records its tree, parent ids and message,
and a repository holds a ref-resolution table, an object database keyed by
commit id, the id of the active branch tip, and the configured tracking
branch.  Exceptions raised by the Python code become `Except` errors; the
error value carries the repository state at the point of failure, since a
Python exception leaves already-performed object-database writes in place.
Prints become `Event` values collected in a log.  The working-tree file
writes and the final `repo.index.reset` touch only the on-disk checkout and
the staged index, neither of which is part of the commit-graph state that the
claims are about, so they have no counterpart here.
-/

/-- Blob content: the raw bytes read from `data_stream.read()`. -/
abbrev Bytes := List Nat

/-- Git tree, flattened to an association list from blob path to blob bytes.
`Tree.join`/`tree[path]` lookups become `treeGet`. -/
abbrev GitTree := List (String × Bytes)

/-- Lookup of the blob stored at `p`, i.e. `tree.join(p)` / `tree[p]`;
`none` models the exception raised when the path is absent. -/
def treeGet (t : GitTree) (p : String) : Option Bytes :=
  match t with
  | [] => none
  | (q, b) :: rest => if q == p then some b else treeGet rest p

/-- Store bytes `b` at path `p`, replacing any existing blob at `p`; this is
what staging a path into a git index does. -/
def treeSet (t : GitTree) (p : String) (b : Bytes) : GitTree :=
  match t with
  | [] => [(p, b)]
  | (q, c) :: rest => if q == p then (p, b) :: rest else (q, c) :: treeSet rest p b

/-- Modelled from the spec: `has_file_in_tree` lives in `common_util`, which is
not under `src/`.  The spec describes it as the test whether
`destination_path` exists in the tip's tree, so it is membership of the path
among the tree's blobs. -/
def has_file_in_tree (path : String) (tree : GitTree) : Bool :=
  (treeGet tree path).isSome

/-- Import entry of the EXPECTED_UPSTREAM manifest (declared in
`common_util`; the fields are the ones the script reads: `e.git_ref`,
`e.src_path`, `e.dst_path`). -/
structure ExpectedUpstreamEntry where
  git_ref : String
  src_path : String
  dst_path : String
deriving Repr, DecidableEq

/-- Git commit: its id (standing for the sha), its tree, the ids of its
parents in order, and its message. -/
structure Commit where
  id : Nat
  tree : GitTree
  parents : List Nat
  message : String
deriving Repr, DecidableEq

/-- Repository state: `refs` resolves a revision string (branch ref or sha)
to a commit id, `objects` is the object database keyed by commit id, `head`
is the id of the active branch tip, `next_id` supplies ids for newly written
commits, `tracking_branch` is the configured upstream tracking branch of the
active branch (`none` when not configured, as `tracking_branch()` returns
`None` in that case), and `active_branch_name` is the active branch's name. -/
structure Repo where
  refs : List (String × Nat)
  objects : List (Nat × Commit)
  head : Nat
  next_id : Nat
  tracking_branch : Option String
  active_branch_name : String
deriving Repr, DecidableEq

/-- Resolution `repo.commit(ref)`: look the revision string up in the ref
table, then the resulting id in the object database; `none` models the
`BadName` exception. -/
def resolveCommit (repo : Repo) (ref : String) : Option Commit :=
  (repo.refs.lookup ref).bind (fun i => repo.objects.lookup i)

/-- Tree of the active branch tip, when the tip id is present in the object
database. -/
def tipTree (repo : Repo) : Option GitTree :=
  (repo.objects.lookup repo.head).map (fun c => c.tree)

/-- Sha of an arbitrary existing commit with an empty tree (line 42 of the
script). -/
def EMPTY_COMMIT_SHA : String := "d85bc16ba1cdcc20bec6fcbfe46dc90f9fcd2f78"

/-- Failure cases of `validate_and_remove_updated_entries`: the head commit
being unreadable, or an exception while processing one entry (unresolvable
ref, missing source path, or missing destination blob), which the script
reports on stderr together with the entry before re-raising. -/
inductive ValidateErr where
  | badHead
  | badEntry (e : ExpectedUpstreamEntry)
deriving Repr, DecidableEq

/-- Loop body of `validate_and_remove_updated_entries` (lines 52-69): per
entry, resolve its ref, look up the source blob, then keep the entry when the
destination is missing from the head tree or its bytes differ from the
source bytes. -/
def validateLoop (repo : Repo) (head_tree : GitTree) :
    List ExpectedUpstreamEntry → Except ValidateErr (List ExpectedUpstreamEntry)
  | [] => .ok []
  | e :: rest =>
    match resolveCommit repo e.git_ref with
    | none => .error (.badEntry e)
    | some commit =>
      match treeGet commit.tree e.src_path with
      | none => .error (.badEntry e)
      | some source_bytes =>
        if has_file_in_tree e.dst_path head_tree then
          match treeGet head_tree e.dst_path with
          | none => .error (.badEntry e)
          | some dst_bytes =>
            if source_bytes ≠ dst_bytes then
              (validateLoop repo head_tree rest).map (fun r => e :: r)
            else
              validateLoop repo head_tree rest
        else
          (validateLoop repo head_tree rest).map (fun r => e :: r)

/-- Staleness filter `validate_and_remove_updated_entries` (lines 45-71):
reads the head commit's tree once, then runs the per-entry loop. -/
def validate_and_remove_updated_entries (entries : List ExpectedUpstreamEntry)
    (repo : Repo) : Except ValidateErr (List ExpectedUpstreamEntry) :=
  match repo.objects.lookup repo.head with
  | none => .error .badHead
  | some head_commit => validateLoop repo head_commit.tree entries

/-- Per-entry step of `partition_entries_by_ref`: `result_map.get(e.git_ref)`
followed by either creating a fresh singleton list or appending to the
existing one; Python dicts preserve insertion order, hence the ordered
association list. -/
def insert_entry (m : List (String × List ExpectedUpstreamEntry))
    (e : ExpectedUpstreamEntry) : List (String × List ExpectedUpstreamEntry) :=
  match m.lookup e.git_ref with
  | none => m ++ [(e.git_ref, [e])]
  | some _ => m.map (fun p => if p.1 == e.git_ref then (p.1, p.2 ++ [e]) else p)

/-- Ref partitioner `partition_entries_by_ref` (lines 74-82). -/
def partition_entries_by_ref (entries : List ExpectedUpstreamEntry) :
    List (List ExpectedUpstreamEntry) :=
  (entries.foldl insert_entry []).map Prod.snd

/-- Path of the script relative to the libcore root,
`Path(__file__).relative_to(LIBCORE_DIR)` (line 85). -/
def THIS_TOOL_PATH : String := "tools/expected_upstream/ojluni_refresh_files.py"

/-- Template of the import-commit message (lines 86-93); the adjacent string
literals of the Python source concatenate. -/
def MSG_FIRST_COMMIT (summary ref files : String) : String :=
  "Import " ++ summary ++ " from " ++ ref ++ "\n\nList of files:\n  " ++ files ++
    "\n\nGenerated by " ++ THIS_TOOL_PATH ++ "\nTest: N/A"

/-- Template of the merge-commit message (lines 95-103); note the double
space of the source between "the" and "expected_upstream". -/
def MSG_SECOND_COMMIT (summary ref files : String) : String :=
  "Merge " ++ summary ++ " from " ++ ref ++ " into the  expected_upstream branch" ++
    "\n\nList of files:\n  " ++ files ++
    "\n\nGenerated by " ++ THIS_TOOL_PATH ++ "\nTest: N/A"

/-- Final path component, as `pathlib.PurePath.name` for the normalized
relative paths the manifest holds. -/
def pathName (p : String) : String :=
  (p.splitOn "/").getLastD ""

/-- Stem of a path, as `pathlib.PurePath.stem`: the name without its last
suffix, where a suffix requires a dot that is neither the first nor past the
last character of the name. -/
def pathStem (p : String) : String :=
  let name := pathName p
  let cs := name.data
  match ((List.range cs.length).filter (fun i => cs.getD i ' ' == '.')).getLast? with
  | some i => if 0 < i ∧ i + 1 < cs.length then String.mk (cs.take i) else name
  | none => name

/-- Failure cases of `merge_files_and_create_commit`: empty group
(`entry_set[0]` raises IndexError), unresolvable group ref, unresolvable
`EMPTY_COMMIT_SHA`, a source path missing from the upstream tree, or an
unreadable active-branch tip. -/
inductive MergeErr where
  | emptyGroup
  | badRef (r : String)
  | badEmptySha
  | badSrc (e : ExpectedUpstreamEntry)
  | badHead
deriving Repr, DecidableEq

/-- Console output of the script, one constructor per `print` site. -/
inductive Event where
  | trackingWarning (branch tracking : String)
  | readingManifest
  | noUpdate
  | willUpdate (paths : List String)
  | newMergeCommit (commit_id : Nat) (paths : List String)
deriving Repr, DecidableEq

/-- Commit an index (`IndexFile.commit`): a new commit object with a fresh id
is appended to the object database, and the branch tip advances to it exactly
when `head` was passed as true. -/
def commitIndex (repo : Repo) (tree : GitTree) (message : String)
    (parents : List Nat) (advance : Bool) : Commit × Repo :=
  let c : Commit := ⟨repo.next_id, tree, parents, message⟩
  (c, { repo with
          objects := repo.objects ++ [(c.id, c)],
          next_id := repo.next_id + 1,
          head := if advance then c.id else repo.head })

/-- Loop of lines 154-165: for each entry read the blob at `src_path` from
the upstream tree (raising if absent), write it to the working tree at
`dst_path`, and stage `dst_path` into the index, so the index maps
`dst_path` to the upstream source bytes. -/
def buildFirstIndex (upstream_tree : GitTree) :
    GitTree → List ExpectedUpstreamEntry → Except ExpectedUpstreamEntry GitTree
  | idx, [] => .ok idx
  | idx, e :: rest =>
    match treeGet upstream_tree e.src_path with
    | none => .error e
    | some b => buildFirstIndex upstream_tree (treeSet idx e.dst_path b) rest

/-- Overlay every blob of `l` into the index `base`
(`second_index.add(first_commit.tree.traverse(blob_filter))`). -/
def overlay (base : GitTree) (l : GitTree) : GitTree :=
  l.foldl (fun t pb => treeSet t pb.1 pb.2) base

/-- Summary placed in both commit messages (lines 169-171): the stem of the
single file when the group has exactly one entry, the literal "files"
otherwise. -/
def summaryOf (entry_set : List ExpectedUpstreamEntry)
    (e0 : ExpectedUpstreamEntry) : String :=
  if entry_set.length == 1 then pathStem e0.dst_path else "files"

/-- Files block of both commit messages (lines 167-168): the destination
paths in entry order, joined by newline and two-space indentation. -/
def filesOf (entry_set : List ExpectedUpstreamEntry) : String :=
  String.intercalate "\n  " (entry_set.map (fun e => e.dst_path))

/-- Remainder of `merge_files_and_create_commit` once the fresh first index
has been rooted at `base_tree` (the tree of the commit `EMPTY_COMMIT_SHA`
resolves to): build the first index, commit it with the upstream commit as
sole parent without moving the tip, re-read the tip as `prev_head`, overlay
the first commit's blobs onto the tip's tree, and commit that as a merge
with parents `[prev_head, first_commit]`, advancing the tip. -/
def mergeFromIndex (entry_set : List ExpectedUpstreamEntry)
    (e0 : ExpectedUpstreamEntry) (upstream_commit : Commit) (base_tree : GitTree)
    (repo : Repo) : Except (MergeErr × Repo) (List Event × Repo) :=
  match buildFirstIndex upstream_commit.tree base_tree entry_set with
  | .error e => .error (.badSrc e, repo)
  | .ok first_index =>
    let dst_paths := entry_set.map (fun e => e.dst_path)
    let str_dst_paths := filesOf entry_set
    let summary_msg := summaryOf entry_set e0
    let fst_step :=
      commitIndex repo first_index
        (MSG_FIRST_COMMIT summary_msg e0.git_ref str_dst_paths)
        [upstream_commit.id] false
    match (fst_step.2).objects.lookup (fst_step.2).head with
    | none => .error (.badHead, fst_step.2)
    | some prev_head =>
      let snd_step :=
        commitIndex fst_step.2 (overlay prev_head.tree (fst_step.1).tree)
          (MSG_SECOND_COMMIT summary_msg e0.git_ref str_dst_paths)
          [prev_head.id, (fst_step.1).id] true
      .ok ([Event.newMergeCommit (snd_step.1).id dst_paths], snd_step.2)

/-- Commit builder `merge_files_and_create_commit` (lines 106-196): resolve
the group's shared ref from its first entry, resolve `EMPTY_COMMIT_SHA` to
root a fresh index at its (empty) tree, then proceed with `mergeFromIndex`. -/
def merge_files_and_create_commit (entry_set : List ExpectedUpstreamEntry)
    (repo : Repo) : Except (MergeErr × Repo) (List Event × Repo) :=
  match entry_set with
  | [] => .error (.emptyGroup, repo)
  | e0 :: _ =>
    match resolveCommit repo e0.git_ref with
    | none => .error (.badRef e0.git_ref, repo)
    | some upstream_commit =>
      match resolveCommit repo EMPTY_COMMIT_SHA with
      | none => .error (.badEmptySha, repo)
      | some empty_commit =>
        mergeFromIndex entry_set e0 upstream_commit empty_commit.tree repo

/-- Failure cases of a whole run of `create_commits`. -/
inductive RunError where
  | trackingNone
  | headMissing
  | entryError (e : ExpectedUpstreamEntry)
  | mergeError (err : MergeErr)
deriving Repr, DecidableEq

/-- Per-group loop at lines 223-224: run the commit builder on each group in
partition order, threading the repository state. -/
def processGroups : List (List ExpectedUpstreamEntry) → Repo → List Event →
    Except (RunError × Repo) (List Event × Repo)
  | [], repo, log => .ok (log, repo)
  | g :: rest, repo, log =>
    match merge_files_and_create_commit g repo with
    | .error (err, repo') => .error (.mergeError err, repo')
    | .ok (mlog, repo') => processGroups rest repo' (log ++ mlog)

/-- Body of `create_commits` after the tracking-branch check (lines 207-224):
filter the entries, stop with a message when none is outdated, otherwise
partition them by ref and process every group. -/
def create_commits_core (entries : List ExpectedUpstreamEntry) (repo : Repo) :
    Except (RunError × Repo) (List Event × Repo) :=
  match validate_and_remove_updated_entries entries repo with
  | .error .badHead => .error (.headMissing, repo)
  | .error (.badEntry e) => .error (.entryError e, repo)
  | .ok outdated =>
    if outdated.isEmpty then
      .ok ([Event.readingManifest, Event.noUpdate], repo)
    else
      processGroups (partition_entries_by_ref outdated) repo
        [Event.readingManifest, Event.willUpdate (outdated.map (fun e => e.dst_path))]

/-- Orchestrator `create_commits` (lines 199-224): reads the active branch's
tracking branch — `tracking_branch()` yields `None` when no tracking branch
is configured, so the `.name` access on line 202 raises in that case — warns
when its name is not `aosp/expected_upstream`, and in either case continues
with the core body. -/
def create_commits (entries : List ExpectedUpstreamEntry) (repo : Repo) :
    Except (RunError × Repo) (List Event × Repo) :=
  match repo.tracking_branch with
  | none => .error (.trackingNone, repo)
  | some tb =>
    if tb = "aosp/expected_upstream" then
      create_commits_core entries repo
    else
      (create_commits_core entries repo).map
        (fun p => (Event.trackingWarning repo.active_branch_name tb :: p.1, p.2))

/-- Keys (blob paths) of a tree. -/
def treeKeys (t : GitTree) : List String := t.map Prod.fst

/-- Sequence of index writes: stage `f e` at `e.dst_path` for each entry in
order, starting from the index `t`. -/
def applyWrites (f : ExpectedUpstreamEntry → Bytes) (t : GitTree)
    (es : List ExpectedUpstreamEntry) : GitTree :=
  es.foldl (fun t e => treeSet t e.dst_path (f e)) t

/-- Refs of the entry list in first-seen order. -/
def firstSeenRefs : List ExpectedUpstreamEntry → List String
  | [] => []
  | e :: rest =>
    e.git_ref :: firstSeenRefs (rest.filter (fun x => !(x.git_ref == e.git_ref)))
termination_by l => l.length
decreasing_by
  simp only [List.length_cons]
  exact Nat.lt_succ_of_le (List.length_filter_le _ _)

/-- Groups of a list keyed by ref in first-seen order, each group being the
sublist of entries carrying that ref. -/
def refGroups (l : List ExpectedUpstreamEntry) :
    List (String × List ExpectedUpstreamEntry) :=
  (firstSeenRefs l).map (fun r => (r, l.filter (fun e => e.git_ref == r)))

/-- Outdatedness predicate implicit in the staleness filter: an entry whose
ref or source path fails to resolve raises rather than being filtered, so
its value here is immaterial; an entry with a resolvable source is outdated
exactly when the destination blob is missing from the head tree or carries
different bytes. -/
def isOutdated (repo : Repo) (head_tree : GitTree)
    (e : ExpectedUpstreamEntry) : Bool :=
  match resolveCommit repo e.git_ref with
  | none => true
  | some c =>
    match treeGet c.tree e.src_path with
    | none => true
    | some source_bytes =>
      match treeGet head_tree e.dst_path with
      | none => true
      | some dst_bytes => decide (source_bytes ≠ dst_bytes)

/-- Tree of the import commit: the upstream bytes of each entry staged at the
entry's destination path over an empty index. -/
def importTree (uc : Commit) (es : List ExpectedUpstreamEntry) : GitTree :=
  applyWrites (fun e => (treeGet uc.tree e.src_path).getD []) [] es

/-- Import commit created for a group by a successful commit-builder run. -/
def firstCommitOf (repo : Repo) (es : List ExpectedUpstreamEntry)
    (e0 : ExpectedUpstreamEntry) (uc : Commit) : Commit :=
  ⟨repo.next_id, importTree uc es, [uc.id],
    MSG_FIRST_COMMIT (summaryOf es e0) e0.git_ref (filesOf es)⟩

/-- Merge commit created for a group by a successful commit-builder run. -/
def secondCommitOf (repo : Repo) (es : List ExpectedUpstreamEntry)
    (e0 : ExpectedUpstreamEntry) (uc hc : Commit) : Commit :=
  ⟨repo.next_id + 1, overlay hc.tree (importTree uc es), [hc.id, repo.next_id],
    MSG_SECOND_COMMIT (summaryOf es e0) e0.git_ref (filesOf es)⟩

/-- Repository state after a successful commit-builder run: both commits are
appended to the object database and the branch tip advances to the merge
commit. -/
def mergeRepoAfter (repo : Repo) (es : List ExpectedUpstreamEntry)
    (e0 : ExpectedUpstreamEntry) (uc hc : Commit) : Repo :=
  { repo with
      objects := repo.objects
        ++ [(repo.next_id, firstCommitOf repo es e0 uc),
            (repo.next_id + 1, secondCommitOf repo es e0 uc hc)],
      next_id := repo.next_id + 2,
      head := repo.next_id + 1 }

/-- Upstream source bytes an entry resolves to in a given repository state
(defaulting to `[]` when unresolvable, which the surrounding hypotheses
exclude). -/
def entryBytes (repo : Repo) (e : ExpectedUpstreamEntry) : Bytes :=
  ((resolveCommit repo e.git_ref).bind (fun c => treeGet c.tree e.src_path)).getD []

/-!
Concrete repository fixtures used by the witnesses and counterexamples.
-/

/-- Prefix test on character lists. -/
def subAt : List Char → List Char → Bool
  | [], _ => true
  | _ :: _, [] => false
  | a :: as, b :: bs => a == b && subAt as bs

/-- Substring containment on strings. -/
def strContainsSub (needle hay : String) : Bool :=
  (List.range (hay.data.length + 1)).any (fun i => subAt needle.data (hay.data.drop i))

/-- Commit with an empty tree, playing the role of the commit
`EMPTY_COMMIT_SHA` denotes in the real repository. -/
def emptyCommitW : Commit := ⟨0, [], [], "empty"⟩

/-- Upstream commit carrying two source blobs. -/
def upstreamW : Commit :=
  ⟨1, [("src/A.java", [65]), ("src/B.java", [66])], [], "upstream"⟩

/-- Branch tip: one unrelated file, and a stale copy of one destination. -/
def tipW : Commit := ⟨2, [("other.txt", [7]), ("ojluni/B.java", [9])], [], "tip"⟩

/-- Concrete repository: the empty-tree sha and one upstream ref resolve, the
tip is commit 2, and the tracking branch is the expected one. -/
def repoW : Repo :=
  ⟨[(EMPTY_COMMIT_SHA, 0), ("jdk8", 1)],
   [(0, emptyCommitW), (1, upstreamW), (2, tipW)],
   2, 3, some "aosp/expected_upstream", "expected_upstream"⟩

/-- Entry whose destination is absent from the tip. -/
def entryA : ExpectedUpstreamEntry := ⟨"jdk8", "src/A.java", "ojluni/A.java"⟩

/-- Entry whose destination exists in the tip with different bytes. -/
def entryB : ExpectedUpstreamEntry := ⟨"jdk8", "src/B.java", "ojluni/B.java"⟩

/-- Entry under a second ref that does not resolve in `repoW`. -/
def entryOtherRef : ExpectedUpstreamEntry := ⟨"jdk9", "src/A.java", "nio/A.java"⟩

/-- Entry whose source path is absent from the upstream tree. -/
def entryBadSrc : ExpectedUpstreamEntry :=
  ⟨"jdk8", "src/Missing.java", "ojluni/M.java"⟩

/-- Repository identical to `repoW` but with no tracking branch configured. -/
def repoNoTracking : Repo := { repoW with tracking_branch := none }

/-- Repository identical to `repoW` but tracking a different branch. -/
def repoOtherTracking : Repo := { repoW with tracking_branch := some "aosp/other" }

/-- Repository identical to `repoW` except that `EMPTY_COMMIT_SHA` does not
resolve. -/
def repoNoEmpty : Repo := { repoW with refs := [("jdk8", 1)] }

/-- Group with destination paths out of sorted order. -/
def entryC8b : ExpectedUpstreamEntry := ⟨"jdk8", "src/A.java", "b.java"⟩

/-- Second entry of the unsorted group. -/
def entryC8a : ExpectedUpstreamEntry := ⟨"jdk8", "src/B.java", "a.java"⟩

/-!
Supporting lemmas.
-/

theorem treeGet_treeSet (t : GitTree) (p : String) (b : Bytes) (q : String) :
    treeGet (treeSet t p b) q = if q = p then some b else treeGet t q := by
  induction t with
  | nil =>
    simp only [treeSet, treeGet, beq_iff_eq]
    by_cases h : q = p
    · simp [h]
    · simp [h, Ne.symm h]
  | cons hd tl ih =>
    obtain ⟨k, c⟩ := hd
    by_cases hk : k = p
    · subst hk
      simp only [treeSet, treeGet, beq_iff_eq, if_pos rfl]
      by_cases h : q = k
      · simp [h]
      · simp [treeGet, h, Ne.symm h, beq_iff_eq]
    · simp only [treeSet, beq_iff_eq, if_neg hk]
      by_cases hq : k = q
      · subst hq
        simp [treeGet, beq_iff_eq, Ne.symm hk, hk]
      · simp [treeGet, beq_iff_eq, hq, ih]

theorem treeGet_eq_none_iff (t : GitTree) (p : String) :
    treeGet t p = none ↔ p ∉ treeKeys t := by
  induction t with
  | nil => simp [treeGet, treeKeys]
  | cons hd tl ih =>
    obtain ⟨k, c⟩ := hd
    by_cases h : k = p
    · simp [treeGet, treeKeys, beq_iff_eq, h]
    · simp [treeGet, treeKeys, beq_iff_eq, h, Ne.symm h, ih]

theorem treeKeys_treeSet (t : GitTree) (p : String) (b : Bytes) :
    treeKeys (treeSet t p b) =
      if p ∈ treeKeys t then treeKeys t else treeKeys t ++ [p] := by
  induction t with
  | nil => simp [treeSet, treeKeys]
  | cons hd tl ih =>
    obtain ⟨k, c⟩ := hd
    by_cases hk : k = p
    · subst hk
      simp [treeSet, treeKeys]
    · simp only [treeSet, beq_iff_eq, if_neg hk]
      simp only [treeKeys, List.map_cons] at ih ⊢
      rw [ih]
      by_cases hp : p ∈ List.map Prod.fst tl
      · simp [hp, Ne.symm hk]
      · simp [hp, Ne.symm hk]

theorem treeKeys_nodup_treeSet (t : GitTree) (p : String) (b : Bytes)
    (h : (treeKeys t).Nodup) : (treeKeys (treeSet t p b)).Nodup := by
  rw [treeKeys_treeSet]
  by_cases hp : p ∈ treeKeys t
  · simpa [hp] using h
  · simp only [hp, if_false]
    simpa [List.nodup_append] using ⟨h, hp⟩

theorem applyWrites_nil (f : ExpectedUpstreamEntry → Bytes) (t : GitTree) :
    applyWrites f t [] = t := rfl

theorem applyWrites_cons (f : ExpectedUpstreamEntry → Bytes) (t : GitTree)
    (e : ExpectedUpstreamEntry) (es : List ExpectedUpstreamEntry) :
    applyWrites f t (e :: es) = applyWrites f (treeSet t e.dst_path (f e)) es := rfl

theorem applyWrites_append (f : ExpectedUpstreamEntry → Bytes) (t : GitTree)
    (l l' : List ExpectedUpstreamEntry) :
    applyWrites f t (l ++ l') = applyWrites f (applyWrites f t l) l' :=
  List.foldl_append _ _ _ _

/-- Lookup in an index built by a write sequence whose destination paths are
pairwise distinct: the first (hence only) entry writing `p` wins, and paths
no entry writes keep their prior association. -/
theorem applyWrites_get (f : ExpectedUpstreamEntry → Bytes)
    (es : List ExpectedUpstreamEntry)
    (hnd : (es.map (fun e => e.dst_path)).Nodup) (t : GitTree) (p : String) :
    treeGet (applyWrites f t es) p =
      match es.find? (fun e => e.dst_path == p) with
      | some e => some (f e)
      | none => treeGet t p := by
  induction es generalizing t with
  | nil => simp [applyWrites]
  | cons e rest ih =>
    simp only [List.map_cons, List.nodup_cons] at hnd
    rw [applyWrites_cons]
    by_cases h : e.dst_path = p
    · have hrest : rest.find? (fun x => x.dst_path == p) = none := by
        rw [List.find?_eq_none]
        intro x hx hxp
        exact hnd.1 (by
          rw [beq_iff_eq] at hxp
          rw [← h] at hxp
          exact hxp ▸ List.mem_map_of_mem (fun e => e.dst_path) hx)
      rw [ih hnd.2]
      simp [List.find?_cons, h, hrest, treeGet_treeSet]
    · rw [ih hnd.2]
      have : (e.dst_path == p) = false := beq_eq_false_iff_ne.mpr h
      simp only [List.find?_cons, this]
      cases hfind : rest.find? (fun x => x.dst_path == p) with
      | some x => simp
      | none => simp [treeGet_treeSet, Ne.symm h]

theorem treeKeys_nodup_applyWrites (f : ExpectedUpstreamEntry → Bytes)
    (es : List ExpectedUpstreamEntry) (t : GitTree)
    (h : (treeKeys t).Nodup) : (treeKeys (applyWrites f t es)).Nodup := by
  induction es generalizing t with
  | nil => simpa [applyWrites] using h
  | cons e rest ih =>
    rw [applyWrites_cons]
    exact ih _ (treeKeys_nodup_treeSet _ _ _ h)

/-- Overlaying the pairs of an index with pairwise-distinct keys onto a base
index: paths present in the overlaid index take its bytes, all other paths
keep the base bytes. -/
theorem treeGet_overlay (l : GitTree) (base : GitTree) (p : String)
    (h : (treeKeys l).Nodup) :
    treeGet (overlay base l) p = (treeGet l p).or (treeGet base p) := by
  induction l generalizing base with
  | nil => simp [overlay, treeGet]
  | cons hd tl ih =>
    obtain ⟨k, c⟩ := hd
    simp only [treeKeys, List.map_cons, List.nodup_cons] at h
    have step : overlay base ((k, c) :: tl) = overlay (treeSet base k c) tl := rfl
    rw [step, ih _ h.2]
    by_cases hp : k = p
    · subst hp
      have : treeGet tl k = none := by
        rw [treeGet_eq_none_iff]
        exact h.1
      simp [treeGet, this, treeGet_treeSet]
    · simp [treeGet, beq_iff_eq, hp, treeGet_treeSet, Ne.symm hp]

/-- Success of the first-index loop: when every source path is present in
the upstream tree, the loop stages exactly the upstream bytes of each entry
at the entry's destination path. -/
theorem buildFirstIndex_ok (u : GitTree) (es : List ExpectedUpstreamEntry)
    (t : GitTree) (hs : ∀ e ∈ es, (treeGet u e.src_path).isSome) :
    buildFirstIndex u t es =
      .ok (applyWrites (fun e => (treeGet u e.src_path).getD []) t es) := by
  induction es generalizing t with
  | nil => simp [buildFirstIndex, applyWrites]
  | cons e rest ih =>
    obtain ⟨b, hb⟩ := Option.isSome_iff_exists.mp (hs e (List.mem_cons_self e rest))
    rw [applyWrites_cons]
    simp only [buildFirstIndex, hb]
    rw [ih _ (fun x hx => hs x (List.mem_cons_of_mem e hx))]
    simp [hb]

theorem lookup_append_some {α β : Type} [BEq α] (l1 l2 : List (α × β)) (k : α)
    (v : β) (h : l1.lookup k = some v) : (l1 ++ l2).lookup k = some v := by
  induction l1 with
  | nil => simp [List.lookup] at h
  | cons hd tl ih =>
    obtain ⟨a, b⟩ := hd
    cases hk : k == a with
    | true => simpa [List.lookup, hk] using by simpa [List.lookup, hk] using h
    | false =>
      simp only [List.cons_append, List.lookup, hk] at h ⊢
      exact ih h

theorem lookup_eq_none_of_keys {α β : Type} [BEq α] [LawfulBEq α]
    (l : List (α × β)) (k : α) (h : ∀ p ∈ l, ¬ p.1 = k) : l.lookup k = none := by
  induction l with
  | nil => rfl
  | cons hd tl ih =>
    obtain ⟨a, b⟩ := hd
    have : (k == a) = false := by
      rw [beq_eq_false_iff_ne]
      exact fun hka => h (a, b) (List.mem_cons_self _ _) hka.symm
    simp only [List.lookup, this]
    exact ih (fun p hp => h p (List.mem_cons_of_mem _ hp))

theorem lookup_append_right {α β : Type} [BEq α] (l1 l2 : List (α × β)) (k : α)
    (h : l1.lookup k = none) : (l1 ++ l2).lookup k = l2.lookup k := by
  induction l1 with
  | nil => rfl
  | cons hd tl ih =>
    obtain ⟨a, b⟩ := hd
    cases hk : k == a with
    | true => simp [List.lookup, hk] at h
    | false =>
      simp only [List.lookup, hk] at h
      simp only [List.cons_append, List.lookup, hk]
      exact ih h

theorem lookup_none_keys {α β : Type} [BEq α] [LawfulBEq α] (l : List (α × β))
    (k : α) (h : l.lookup k = none) : ∀ p ∈ l, ¬ p.1 = k := by
  induction l with
  | nil => intro p hp; simp at hp
  | cons hd tl ih =>
    obtain ⟨a, b⟩ := hd
    cases hk : k == a with
    | true => simp [List.lookup, hk] at h
    | false =>
      simp only [List.lookup, hk] at h
      intro p hp hpk
      rcases List.mem_cons.mp hp with h1 | h2
      · rw [h1] at hpk
        exact beq_eq_false_iff_ne.mp hk hpk.symm
      · exact ih h p h2 hpk

theorem lookup_isNone_insert_map (m : List (String × List ExpectedUpstreamEntry))
    (r : String) (e : ExpectedUpstreamEntry) (k : String) :
    ((m.map (fun p => if p.1 == r then (p.1, p.2 ++ [e]) else p)).lookup k).isNone
      = (m.lookup k).isNone := by
  induction m with
  | nil => rfl
  | cons hd tl ih =>
    obtain ⟨a, b⟩ := hd
    have hhead : (fun p : String × List ExpectedUpstreamEntry =>
          if p.1 == r then (p.1, p.2 ++ [e]) else p) (a, b)
        = (a, if a == r then b ++ [e] else b) := by
      cases h : a == r <;> simp [h]
    simp only [List.map_cons, hhead]
    cases hk : k == a with
    | true => simp only [List.lookup, hk]; rfl
    | false => simp only [List.lookup, hk]; exact ih

theorem mem_firstSeenRefs (l : List ExpectedUpstreamEntry) (r : String)
    (h : r ∈ firstSeenRefs l) : ∃ e ∈ l, e.git_ref = r := by
  induction l using firstSeenRefs.induct with
  | case1 => simp [firstSeenRefs] at h
  | case2 e rest ih =>
    rw [firstSeenRefs] at h
    rcases List.mem_cons.mp h with h1 | h2
    · exact ⟨e, List.mem_cons_self _ _, h1.symm⟩
    · obtain ⟨x, hx, hxr⟩ := ih h2
      exact ⟨x, List.mem_cons_of_mem _ (List.mem_of_mem_filter hx), hxr⟩

theorem git_ref_mem_firstSeenRefs (l : List ExpectedUpstreamEntry)
    (e : ExpectedUpstreamEntry) (h : e ∈ l) : e.git_ref ∈ firstSeenRefs l := by
  induction l using firstSeenRefs.induct with
  | case1 => simp at h
  | case2 x rest ih =>
    rw [firstSeenRefs]
    rcases List.mem_cons.mp h with h1 | h2
    · rw [h1]
      exact List.mem_cons_self _ _
    · by_cases hr : e.git_ref = x.git_ref
      · rw [hr]
        exact List.mem_cons_self _ _
      · refine List.mem_cons_of_mem _ (ih ?_)
        refine List.mem_filter.mpr ⟨h2, ?_⟩
        simpa using hr

theorem nodup_firstSeenRefs (l : List ExpectedUpstreamEntry) :
    (firstSeenRefs l).Nodup := by
  induction l using firstSeenRefs.induct with
  | case1 => simp [firstSeenRefs]
  | case2 e rest ih =>
    rw [firstSeenRefs]
    refine List.nodup_cons.mpr ⟨?_, ih⟩
    intro hmem
    obtain ⟨x, hx, hxr⟩ := mem_firstSeenRefs _ _ hmem
    have hf := (List.mem_filter.mp hx).2
    simp [hxr] at hf

theorem refGroups_cons (e : ExpectedUpstreamEntry)
    (l : List ExpectedUpstreamEntry) :
    refGroups (e :: l) =
      (e.git_ref, e :: l.filter (fun x => x.git_ref == e.git_ref)) ::
        refGroups (l.filter (fun x => !(x.git_ref == e.git_ref))) := by
  unfold refGroups
  rw [firstSeenRefs, List.map_cons]
  congr 1
  · simp [List.filter_cons]
  · apply List.map_congr_left
    intro r hr
    obtain ⟨x, hx, hxr⟩ := mem_firstSeenRefs _ _ hr
    have hne : ¬ r = e.git_ref := by
      have hf := (List.mem_filter.mp hx).2
      intro hre
      rw [hxr, hre] at hf
      simp at hf
    have h2 : (e :: l).filter (fun y => y.git_ref == r)
        = l.filter (fun y => y.git_ref == r) := by
      rw [List.filter_cons]
      simp [beq_eq_false_iff_ne.mpr (fun h : e.git_ref = r => hne h.symm)]
    have h3 : (l.filter (fun x => !(x.git_ref == e.git_ref))).filter
          (fun y => y.git_ref == r) = l.filter (fun y => y.git_ref == r) := by
      rw [List.filter_filter]
      apply List.filter_congr
      intro x' hx'
      cases hxr' : (x'.git_ref == r) with
      | false => simp [hxr']
      | true =>
        have : (x'.git_ref == e.git_ref) = false := by
          rw [beq_eq_false_iff_ne]
          rw [beq_iff_eq] at hxr'
          rw [hxr']
          exact fun h => hne h
        simp [hxr', this]
    rw [h2, h3]

theorem foldl_insert_entry_eq (l : List ExpectedUpstreamEntry) :
    ∀ m : List (String × List ExpectedUpstreamEntry),
    l.foldl insert_entry m =
      m.map (fun p => (p.1, p.2 ++ l.filter (fun x => x.git_ref == p.1)))
        ++ refGroups (l.filter (fun x => (m.lookup x.git_ref).isNone)) := by
  induction l with
  | nil =>
    intro m
    simp [refGroups, firstSeenRefs]
  | cons e rest ih =>
    intro m
    rw [List.foldl_cons]
    cases hm : m.lookup e.git_ref with
    | some g0 =>
      have hins : insert_entry m e
          = m.map (fun p => if p.1 == e.git_ref then (p.1, p.2 ++ [e]) else p) := by
        simp [insert_entry, hm]
      rw [hins, ih]
      have hfilters : rest.filter (fun x =>
            ((m.map (fun p => if p.1 == e.git_ref then (p.1, p.2 ++ [e]) else p)).lookup
              x.git_ref).isNone)
          = rest.filter (fun x => (m.lookup x.git_ref).isNone) :=
        List.filter_congr (fun x _ => lookup_isNone_insert_map m e.git_ref e x.git_ref)
      have hfe : (e :: rest).filter (fun x => (m.lookup x.git_ref).isNone)
          = rest.filter (fun x => (m.lookup x.git_ref).isNone) := by
        simp [List.filter_cons, hm]
      have hmap : (m.map (fun p => if p.1 == e.git_ref then (p.1, p.2 ++ [e]) else p)).map
            (fun p => (p.1, p.2 ++ rest.filter (fun x => x.git_ref == p.1)))
          = m.map (fun p => (p.1, p.2 ++ (e :: rest).filter (fun x => x.git_ref == p.1))) := by
        rw [List.map_map]
        apply List.map_congr_left
        intro p hp
        simp only [Function.comp_apply]
        cases hpe : p.1 == e.git_ref with
        | true =>
          have hp1 : e.git_ref = p.1 := (beq_iff_eq.mp hpe).symm
          have : (e.git_ref == p.1) = true := beq_iff_eq.mpr hp1
          simp [List.filter_cons, this, List.append_assoc]
        | false =>
          have : (e.git_ref == p.1) = false :=
            beq_eq_false_iff_ne.mpr (fun h => (beq_eq_false_iff_ne.mp hpe) h.symm)
          simp [List.filter_cons, this]
      rw [hfilters, hfe, hmap]
    | none =>
      have hins : insert_entry m e = m ++ [(e.git_ref, [e])] := by
        simp [insert_entry, hm]
      rw [hins, ih]
      have hkeys := lookup_none_keys m e.git_ref hm
      have hcondB : ∀ x : ExpectedUpstreamEntry,
          ((m ++ [(e.git_ref, [e])]).lookup x.git_ref).isNone
            = ((m.lookup x.git_ref).isNone && !(x.git_ref == e.git_ref)) := by
        intro x
        cases hx : m.lookup x.git_ref with
        | some v => rw [lookup_append_some m _ _ _ hx]; simp
        | none =>
          rw [lookup_append_right m _ _ hx]
          cases hxe : x.git_ref == e.git_ref <;> simp [List.lookup, hxe]
      have hmapB : m.map (fun p => (p.1, p.2 ++ (e :: rest).filter (fun x => x.git_ref == p.1)))
          = m.map (fun p => (p.1, p.2 ++ rest.filter (fun x => x.git_ref == p.1))) := by
        apply List.map_congr_left
        intro p hp
        have : (e.git_ref == p.1) = false :=
          beq_eq_false_iff_ne.mpr (fun h => hkeys p hp h.symm)
        simp [List.filter_cons, this]
      have hfeB : (e :: rest).filter (fun x => (m.lookup x.git_ref).isNone)
          = e :: rest.filter (fun x => (m.lookup x.git_ref).isNone) := by
        simp [List.filter_cons, hm]
      have hD : (rest.filter (fun x => (m.lookup x.git_ref).isNone)).filter
            (fun x => x.git_ref == e.git_ref)
          = rest.filter (fun x => x.git_ref == e.git_ref) := by
        rw [List.filter_filter]
        apply List.filter_congr
        intro x hx
        cases hxe : x.git_ref == e.git_ref with
        | false => simp [hxe]
        | true =>
          have hnone : m.lookup x.git_ref = none := by
            rw [beq_iff_eq] at hxe
            rw [hxe]
            exact hm
          simp [hxe, hnone]
      have hE : rest.filter (fun x => ((m ++ [(e.git_ref, [e])]).lookup x.git_ref).isNone)
          = (rest.filter (fun x => (m.lookup x.git_ref).isNone)).filter
              (fun x => !(x.git_ref == e.git_ref)) := by
        rw [List.filter_filter]
        apply List.filter_congr
        intro x hx
        rw [hcondB x]
        exact Bool.and_comm _ _
      rw [hmapB, hfeB, refGroups_cons, hD, hE, List.map_append]
      simp [List.append_assoc]

theorem partition_eq (entries : List ExpectedUpstreamEntry) :
    partition_entries_by_ref entries =
      (firstSeenRefs entries).map
        (fun r => entries.filter (fun e => e.git_ref == r)) := by
  unfold partition_entries_by_ref
  rw [foldl_insert_entry_eq]
  simp [refGroups, List.map_map, Function.comp]

theorem flatten_map_filter_perm (ks : List String) :
    ∀ l : List ExpectedUpstreamEntry, (∀ e ∈ l, e.git_ref ∈ ks) → ks.Nodup →
    ((ks.map (fun r => l.filter (fun e => e.git_ref == r))).flatten).Perm l := by
  induction ks with
  | nil =>
    intro l hcov _
    have : l = [] := List.eq_nil_iff_forall_not_mem.mpr
      (fun a ha => by simpa using hcov a ha)
    simp [this]
  | cons r ks ih =>
    intro l hcov hnd
    have hnd' := List.nodup_cons.mp hnd
    simp only [List.map_cons, List.flatten_cons]
    have htail : ∀ r' ∈ ks, l.filter (fun e => e.git_ref == r')
        = (l.filter (fun e => !(e.git_ref == r))).filter (fun e => e.git_ref == r') := by
      intro r' hr'
      rw [List.filter_filter]
      have hrr : ¬ r' = r := fun h => hnd'.1 (h ▸ hr')
      symm
      apply List.filter_congr
      intro x hx
      cases hxr : x.git_ref == r' with
      | false => simp [hxr]
      | true =>
        have : (x.git_ref == r) = false := by
          rw [beq_eq_false_iff_ne]
          rw [beq_iff_eq] at hxr
          rw [hxr]
          exact hrr
        simp [hxr, this]
    rw [List.map_congr_left htail]
    have hcov' : ∀ e ∈ l.filter (fun e => !(e.git_ref == r)), e.git_ref ∈ ks := by
      intro e he
      obtain ⟨hel, hene⟩ := List.mem_filter.mp he
      rcases List.mem_cons.mp (hcov e hel) with h1 | h2
      · rw [h1] at hene
        simp at hene
      · exact h2
    have hperm := ih (l.filter (fun e => !(e.git_ref == r))) hcov' hnd'.2
    exact (List.Perm.append_left _ hperm).trans (List.filter_append_perm _ l)

theorem partition_flatten_perm (entries : List ExpectedUpstreamEntry) :
    ((partition_entries_by_ref entries).flatten).Perm entries := by
  rw [partition_eq]
  exact flatten_map_filter_perm _ entries
    (fun e he => git_ref_mem_firstSeenRefs _ e he) (nodup_firstSeenRefs _)

theorem partition_mem_spec (entries : List ExpectedUpstreamEntry)
    (g : List ExpectedUpstreamEntry) (hg : g ∈ partition_entries_by_ref entries) :
    ∃ r, r ∈ firstSeenRefs entries
      ∧ g = entries.filter (fun e => e.git_ref == r) := by
  rw [partition_eq] at hg
  obtain ⟨r, hr, hgr⟩ := List.mem_map.mp hg
  exact ⟨r, hr, hgr.symm⟩

theorem partition_group_ne_nil (entries : List ExpectedUpstreamEntry)
    (g : List ExpectedUpstreamEntry) (hg : g ∈ partition_entries_by_ref entries) :
    g ≠ [] := by
  obtain ⟨r, hr, hgr⟩ := partition_mem_spec entries g hg
  obtain ⟨e, hel, her⟩ := mem_firstSeenRefs _ _ hr
  intro hnil
  rw [hgr] at hnil
  rw [List.filter_eq_nil_iff] at hnil
  exact hnil e hel (by simp [her])

theorem partition_group_same_ref (entries : List ExpectedUpstreamEntry)
    (g : List ExpectedUpstreamEntry) (hg : g ∈ partition_entries_by_ref entries)
    (e : ExpectedUpstreamEntry) (he : e ∈ g) (e' : ExpectedUpstreamEntry)
    (he' : e' ∈ g) : e.git_ref = e'.git_ref := by
  obtain ⟨r, hr, hgr⟩ := partition_mem_spec entries g hg
  rw [hgr] at he he'
  have h1 := (List.mem_filter.mp he).2
  have h2 := (List.mem_filter.mp he').2
  rw [beq_iff_eq] at h1 h2
  rw [h1, h2]

theorem partition_group_subset (entries : List ExpectedUpstreamEntry)
    (g : List ExpectedUpstreamEntry) (hg : g ∈ partition_entries_by_ref entries)
    (e : ExpectedUpstreamEntry) (he : e ∈ g) : e ∈ entries := by
  obtain ⟨r, hr, hgr⟩ := partition_mem_spec entries g hg
  rw [hgr] at he
  exact (List.mem_filter.mp he).1

theorem validateLoop_eq_filter (repo : Repo) (head_tree : GitTree)
    (entries : List ExpectedUpstreamEntry)
    (hres : ∀ e ∈ entries, ∃ c, resolveCommit repo e.git_ref = some c
      ∧ (treeGet c.tree e.src_path).isSome) :
    validateLoop repo head_tree entries
      = .ok (entries.filter (isOutdated repo head_tree)) := by
  induction entries with
  | nil => simp [validateLoop]
  | cons e rest ih =>
    obtain ⟨c, hc, hsrc⟩ := hres e (List.mem_cons_self _ _)
    obtain ⟨sb, hsb⟩ := Option.isSome_iff_exists.mp hsrc
    have ihr := ih (fun x hx => hres x (List.mem_cons_of_mem _ hx))
    cases hdst : treeGet head_tree e.dst_path with
    | none =>
      have hhf : has_file_in_tree e.dst_path head_tree = false := by
        simp [has_file_in_tree, hdst]
      have hout : isOutdated repo head_tree e = true := by
        simp [isOutdated, hc, hsb, hdst]
      simp [validateLoop, hc, hsb, hhf, ihr, List.filter_cons, hout, Except.map]
    | some db =>
      have hhf : has_file_in_tree e.dst_path head_tree = true := by
        simp [has_file_in_tree, hdst]
      by_cases heq : sb = db
      · have hout : isOutdated repo head_tree e = false := by
          simp [isOutdated, hc, hsb, hdst, heq]
        simp [validateLoop, hc, hsb, hhf, hdst, heq, ihr, List.filter_cons, hout, Except.map]
      · have hout : isOutdated repo head_tree e = true := by
          simp [isOutdated, hc, hsb, hdst, heq]
        simp [validateLoop, hc, hsb, hhf, hdst, heq, ihr, List.filter_cons, hout, Except.map]

theorem validate_eq_filter (entries : List ExpectedUpstreamEntry) (repo : Repo)
    (hc : Commit) (hh : repo.objects.lookup repo.head = some hc)
    (hres : ∀ e ∈ entries, ∃ c, resolveCommit repo e.git_ref = some c
      ∧ (treeGet c.tree e.src_path).isSome) :
    validate_and_remove_updated_entries entries repo
      = .ok (entries.filter (isOutdated repo hc.tree)) := by
  unfold validate_and_remove_updated_entries
  rw [hh]
  exact validateLoop_eq_filter repo hc.tree entries hres

theorem validateLoop_error_of_bad (repo : Repo) (head_tree : GitTree)
    (entries : List ExpectedUpstreamEntry) (e : ExpectedUpstreamEntry)
    (hmem : e ∈ entries)
    (hbad : resolveCommit repo e.git_ref = none
      ∨ ∃ c, resolveCommit repo e.git_ref = some c
          ∧ treeGet c.tree e.src_path = none) :
    ∃ e', validateLoop repo head_tree entries
      = .error (ValidateErr.badEntry e') := by
  induction entries with
  | nil => simp at hmem
  | cons x rest ih =>
    cases hcx : resolveCommit repo x.git_ref with
    | none => exact ⟨x, by simp [validateLoop, hcx]⟩
    | some c =>
      cases hsx : treeGet c.tree x.src_path with
      | none => exact ⟨x, by simp [validateLoop, hcx, hsx]⟩
      | some sb =>
        have hrest : e ∈ rest := by
          rcases List.mem_cons.mp hmem with h1 | h2
          · exfalso
            rcases hbad with hb | ⟨c', hc', hs'⟩
            · rw [h1, hcx] at hb
              cases hb
            · rw [h1, hcx] at hc'
              injection hc' with hcc
              rw [h1, ← hcc, hsx] at hs'
              cases hs'
          · exact h2
        obtain ⟨e', he'⟩ := ih hrest
        cases hdst : treeGet head_tree x.dst_path with
        | none =>
          by_cases hhf : has_file_in_tree x.dst_path head_tree
          · exact ⟨x, by simp [validateLoop, hcx, hsx, hhf, hdst]⟩
          · exact ⟨e', by simp [validateLoop, hcx, hsx, hhf, he', Except.map]⟩
        | some db =>
          have hhf : has_file_in_tree x.dst_path head_tree = true := by
            simp [has_file_in_tree, hdst]
          by_cases hnd : sb = db
          · exact ⟨e', by simp [validateLoop, hcx, hsx, hhf, hdst, hnd, he', Except.map]⟩
          · exact ⟨e', by simp [validateLoop, hcx, hsx, hhf, hdst, hnd, he', Except.map]⟩

theorem merge_spec (repo : Repo) (es : List ExpectedUpstreamEntry)
    (e0 : ExpectedUpstreamEntry) (uc ec hc : Commit)
    (h0 : es.head? = some e0)
    (hu : resolveCommit repo e0.git_ref = some uc)
    (he : resolveCommit repo EMPTY_COMMIT_SHA = some ec)
    (het : ec.tree = [])
    (hh : repo.objects.lookup repo.head = some hc)
    (hs : ∀ e ∈ es, (treeGet uc.tree e.src_path).isSome) :
    merge_files_and_create_commit es repo =
      .ok ([Event.newMergeCommit (repo.next_id + 1)
              (es.map (fun e => e.dst_path))],
        mergeRepoAfter repo es e0 uc hc) := by
  obtain ⟨tl, rfl⟩ : ∃ tl, es = e0 :: tl := by
    cases es with
    | nil => simp at h0
    | cons a tl =>
      have : a = e0 := by simpa using h0
      exact ⟨tl, by rw [this]⟩
  have hbi : buildFirstIndex uc.tree ec.tree (e0 :: tl)
      = .ok (importTree uc (e0 :: tl)) := by
    rw [het]
    exact buildFirstIndex_ok uc.tree (e0 :: tl) [] hs
  simp only [merge_files_and_create_commit, hu, he, mergeFromIndex, hbi,
    commitIndex]
  rw [show (if false = true then repo.next_id else repo.head) = repo.head from rfl]
  rw [lookup_append_some repo.objects _ repo.head hc (by simpa using hh)]
  simp only [mergeRepoAfter, firstCommitOf, secondCommitOf, importTree]
  simp [List.append_assoc]

theorem find?_dst_self (es : List ExpectedUpstreamEntry)
    (hnd : (es.map (fun e => e.dst_path)).Nodup) (e : ExpectedUpstreamEntry)
    (he : e ∈ es) :
    es.find? (fun x => x.dst_path == e.dst_path) = some e := by
  have h1 : (es.find? (fun x => x.dst_path == e.dst_path)).isSome :=
    List.find?_isSome.mpr ⟨e, he, by simp⟩
  obtain ⟨x, hx⟩ := Option.isSome_iff_exists.mp h1
  have hmem := List.mem_of_find?_eq_some hx
  have hpx := List.find?_some hx
  rw [beq_iff_eq] at hpx
  have hxe := List.inj_on_of_nodup_map hnd hmem he hpx
  rw [hx, hxe]

theorem importTree_keys_nodup (uc : Commit) (es : List ExpectedUpstreamEntry) :
    (treeKeys (importTree uc es)).Nodup :=
  treeKeys_nodup_applyWrites _ _ _ (by simp [treeKeys])

theorem importTree_get_mem (uc : Commit) (es : List ExpectedUpstreamEntry)
    (hnd : (es.map (fun e => e.dst_path)).Nodup) (e : ExpectedUpstreamEntry)
    (he : e ∈ es) :
    treeGet (importTree uc es) e.dst_path
      = some ((treeGet uc.tree e.src_path).getD []) := by
  unfold importTree
  rw [applyWrites_get _ _ hnd, find?_dst_self es hnd e he]

theorem importTree_get_not_mem (uc : Commit) (es : List ExpectedUpstreamEntry)
    (hnd : (es.map (fun e => e.dst_path)).Nodup) (p : String)
    (hp : ∀ e ∈ es, ¬ e.dst_path = p) :
    treeGet (importTree uc es) p = none := by
  unfold importTree
  rw [applyWrites_get _ _ hnd]
  have hf : es.find? (fun x => x.dst_path == p) = none :=
    List.find?_eq_none.mpr (fun x hx => by simpa using hp x hx)
  rw [hf]
  rfl

theorem resolve_mergeRepoAfter (repo : Repo) (es : List ExpectedUpstreamEntry)
    (e0 : ExpectedUpstreamEntry) (uc hc : Commit) (r : String) (c : Commit)
    (h : resolveCommit repo r = some c) :
    resolveCommit (mergeRepoAfter repo es e0 uc hc) r = some c := by
  unfold resolveCommit at h ⊢
  unfold mergeRepoAfter
  cases hr : repo.refs.lookup r with
  | none => rw [hr] at h; cases h
  | some i =>
    rw [hr] at h
    simp only [Option.some_bind] at h
    simp only [hr, Option.some_bind]
    exact lookup_append_some _ _ _ _ h

theorem fresh_mergeRepoAfter (repo : Repo) (es : List ExpectedUpstreamEntry)
    (e0 : ExpectedUpstreamEntry) (uc hc : Commit)
    (hfr : ∀ p ∈ repo.objects, p.1 < repo.next_id) :
    ∀ p ∈ (mergeRepoAfter repo es e0 uc hc).objects,
      p.1 < (mergeRepoAfter repo es e0 uc hc).next_id := by
  intro p hp
  simp only [mergeRepoAfter] at hp ⊢
  rcases List.mem_append.mp hp with h | h
  · exact Nat.lt_of_lt_of_le (hfr p h) (by omega)
  · simp only [List.mem_cons, List.mem_singleton] at h
    rcases h with h | h | h
    · rw [h]; omega
    · rw [h]; omega
    · simp at h

theorem head_mergeRepoAfter (repo : Repo) (es : List ExpectedUpstreamEntry)
    (e0 : ExpectedUpstreamEntry) (uc hc : Commit)
    (hfr : ∀ p ∈ repo.objects, p.1 < repo.next_id) :
    (mergeRepoAfter repo es e0 uc hc).objects.lookup
        (mergeRepoAfter repo es e0 uc hc).head
      = some (secondCommitOf repo es e0 uc hc) := by
  simp only [mergeRepoAfter]
  rw [lookup_append_right]
  · have h1 : (repo.next_id + 1 == repo.next_id) = false := by
      rw [beq_eq_false_iff_ne]
      omega
    simp [List.lookup, h1]
  · exact lookup_eq_none_of_keys _ _
      (fun p hp => by have := hfr p hp; omega)

theorem processGroups_spec (repo0 : Repo) (ec : Commit)
    (he : resolveCommit repo0 EMPTY_COMMIT_SHA = some ec) (het : ec.tree = [])
    (gs : List (List ExpectedUpstreamEntry)) :
    ∀ (repo : Repo) (log : List Event) (hc : Commit) (base : GitTree),
    (∀ p ∈ repo.objects, p.1 < repo.next_id) →
    (∀ r c, resolveCommit repo0 r = some c → resolveCommit repo r = some c) →
    repo.objects.lookup repo.head = some hc →
    (∀ p, treeGet hc.tree p = treeGet base p) →
    (∀ g ∈ gs, g ≠ []) →
    (∀ g ∈ gs, ∀ e ∈ g, ∀ e' ∈ g, e.git_ref = e'.git_ref) →
    (∀ e ∈ gs.flatten, ∃ c, resolveCommit repo0 e.git_ref = some c
      ∧ (treeGet c.tree e.src_path).isSome) →
    (gs.flatten.map (fun e => e.dst_path)).Nodup →
    ∃ log' repoF hcF,
      processGroups gs repo log = .ok (log', repoF) ∧
      (∀ p ∈ repoF.objects, p.1 < repoF.next_id) ∧
      (∀ r c, resolveCommit repo0 r = some c → resolveCommit repoF r = some c) ∧
      repoF.objects.lookup repoF.head = some hcF ∧
      repoF.tracking_branch = repo.tracking_branch ∧
      (∀ p, treeGet hcF.tree p
        = treeGet (applyWrites (entryBytes repo0) base gs.flatten) p) := by
  induction gs with
  | nil =>
    intro repo log hc base hfr hpres hh hbase _ _ _ _
    exact ⟨log, repo, hc, rfl, hfr, hpres, hh, rfl,
      by simpa [applyWrites] using hbase⟩
  | cons g rest ih =>
    intro repo log hc base hfr hpres hh hbase hgne hgref hres hnd
    obtain ⟨e0, g', rfl⟩ : ∃ e0 g', g = e0 :: g' := by
      cases g with
      | nil => exact absurd rfl (hgne [] (List.mem_cons_self _ _))
      | cons a b => exact ⟨a, b, rfl⟩
    rw [List.flatten_cons] at hres hnd
    have hndg : ((e0 :: g').map (fun e => e.dst_path)).Nodup := by
      rw [List.map_append] at hnd
      exact (List.nodup_append.mp hnd).1
    obtain ⟨uc, huc0, husrc⟩ := hres e0 (List.mem_append_left _ (by simp))
    have huc : resolveCommit repo e0.git_ref = some uc := hpres _ _ huc0
    have hec : resolveCommit repo EMPTY_COMMIT_SHA = some ec := hpres _ _ he
    have hs : ∀ e ∈ e0 :: g', (treeGet uc.tree e.src_path).isSome := by
      intro e heg
      obtain ⟨c, hcr, hcs⟩ := hres e (List.mem_append_left _ heg)
      have href : e.git_ref = e0.git_ref :=
        hgref _ (List.mem_cons_self _ _) e heg e0 (by simp)
      rw [href, huc0] at hcr
      injection hcr with hcu
      exact hcu ▸ hcs
    have hms := merge_spec repo (e0 :: g') e0 uc ec hc rfl huc hec het hh hs
    simp only [processGroups, hms]
    have hfr1 := fresh_mergeRepoAfter repo (e0 :: g') e0 uc hc hfr
    have hpres1 : ∀ r c, resolveCommit repo0 r = some c →
        resolveCommit (mergeRepoAfter repo (e0 :: g') e0 uc hc) r = some c :=
      fun r c h => resolve_mergeRepoAfter _ _ _ _ _ _ _ (hpres r c h)
    have hh1 := head_mergeRepoAfter repo (e0 :: g') e0 uc hc hfr
    have hbase1 : ∀ p, treeGet (secondCommitOf repo (e0 :: g') e0 uc hc).tree p
        = treeGet (applyWrites (entryBytes repo0) base (e0 :: g')) p := by
      intro p
      show treeGet (overlay hc.tree (importTree uc (e0 :: g'))) p = _
      rw [treeGet_overlay _ _ _ (importTree_keys_nodup _ _)]
      by_cases hp : ∃ e ∈ e0 :: g', e.dst_path = p
      · obtain ⟨e, heg, hep⟩ := hp
        subst hep
        rw [importTree_get_mem uc _ hndg e heg]
        rw [applyWrites_get _ _ hndg, find?_dst_self _ hndg e heg]
        simp only [Option.or_some]
        have href : e.git_ref = e0.git_ref :=
          hgref _ (List.mem_cons_self _ _) e heg e0 (by simp)
        unfold entryBytes
        rw [href, huc0]
        rfl
      · push_neg at hp
        rw [importTree_get_not_mem uc _ hndg p hp]
        rw [applyWrites_get _ _ hndg]
        have hf : (e0 :: g').find? (fun x => x.dst_path == p) = none :=
          List.find?_eq_none.mpr (fun x hx => by simpa using hp x hx)
        rw [hf]
        simp only [Option.none_or]
        exact hbase p
    obtain ⟨log', repoF, hcF, hpg, hfrF, hpresF, hhF, htrF, hbaseF⟩ :=
      ih (mergeRepoAfter repo (e0 :: g') e0 uc hc)
        (log ++ [Event.newMergeCommit (repo.next_id + 1)
          ((e0 :: g').map (fun e => e.dst_path))])
        (secondCommitOf repo (e0 :: g') e0 uc hc)
        (applyWrites (entryBytes repo0) base (e0 :: g'))
        hfr1 hpres1 hh1 hbase1
        (fun g hg => hgne g (List.mem_cons_of_mem _ hg))
        (fun g hg => hgref g (List.mem_cons_of_mem _ hg))
        (fun e heg => hres e (List.mem_append_right _ heg))
        (by
          rw [List.map_append] at hnd
          exact (List.nodup_append.mp hnd).2.1)
    refine ⟨log', repoF, hcF, hpg, hfrF, hpresF, hhF, htrF, ?_⟩
    intro p
    rw [hbaseF p, List.flatten_cons, applyWrites_append]

/-!
Claim theorems.
-/

/-- C4: for every input list, the Ref Partitioner's groups are non-empty and
each shares one upstream ref; the groups are, in first-seen order of refs,
exactly the per-ref sublists of the input (so entries keep their input
relative order and groups are disjoint and exhaustive); the concatenation of
all groups is a permutation of the input; and the empty input yields the
empty output.  The function is pure by construction. -/
theorem partitioner_correct :
    partition_entries_by_ref [] = [] ∧
    ∀ entries : List ExpectedUpstreamEntry,
      (∀ g ∈ partition_entries_by_ref entries, g ≠ []) ∧
      (∀ g ∈ partition_entries_by_ref entries,
        ∀ e ∈ g, ∀ e' ∈ g, e.git_ref = e'.git_ref) ∧
      partition_entries_by_ref entries
        = (firstSeenRefs entries).map
            (fun r => entries.filter (fun e => e.git_ref == r)) ∧
      ((partition_entries_by_ref entries).flatten).Perm entries :=
  ⟨rfl, fun entries =>
    ⟨partition_group_ne_nil entries, partition_group_same_ref entries,
     partition_eq entries, partition_flatten_perm entries⟩⟩

/-- Witness for C4 at a concrete three-entry input with two refs. -/
theorem partitioner_correct_witness :
    (∀ g ∈ partition_entries_by_ref [entryA, entryOtherRef, entryB], g ≠ []) ∧
    ((partition_entries_by_ref [entryA, entryOtherRef, entryB]).flatten).Perm
      [entryA, entryOtherRef, entryB] :=
  ⟨(partitioner_correct.2 [entryA, entryOtherRef, entryB]).1,
   (partitioner_correct.2 [entryA, entryOtherRef, entryB]).2.2.2⟩

/-- C2: when every entry's ref resolves and its source path is present, the
Staleness Filter succeeds and returns exactly the sublist (hence in input
order) of entries that are outdated, where an entry with source bytes `sb`
is outdated precisely when the destination blob of the tip's tree is not
`some sb`, i.e. the destination is absent or its bytes differ; entries with
equal content are dropped. -/
theorem staleness_filter_exact (entries : List ExpectedUpstreamEntry)
    (repo : Repo) (hc : Commit)
    (hh : repo.objects.lookup repo.head = some hc)
    (hres : ∀ e ∈ entries, ∃ c, resolveCommit repo e.git_ref = some c
      ∧ (treeGet c.tree e.src_path).isSome) :
    validate_and_remove_updated_entries entries repo
      = .ok (entries.filter (isOutdated repo hc.tree)) ∧
    ∀ (e : ExpectedUpstreamEntry) (c : Commit) (sb : Bytes),
      resolveCommit repo e.git_ref = some c →
      treeGet c.tree e.src_path = some sb →
      (isOutdated repo hc.tree e = true ↔ treeGet hc.tree e.dst_path ≠ some sb) := by
  refine ⟨validate_eq_filter entries repo hc hh hres, ?_⟩
  intro e c sb hcr hsr
  simp only [isOutdated, hcr, hsr]
  cases hd : treeGet hc.tree e.dst_path with
  | none => exact iff_of_true rfl (fun h => Option.noConfusion h)
  | some db =>
    rw [decide_eq_true_eq]
    constructor
    · intro h hsome
      exact h (Option.some.inj hsome).symm
    · intro h hne
      exact h (congrArg some hne.symm)

/-- Witness for C2: `entryA`'s destination is missing and `entryB`'s differs,
so both are returned, in input order. -/
theorem staleness_filter_exact_witness :
    repoW.objects.lookup repoW.head = some tipW ∧
    validate_and_remove_updated_entries [entryA, entryB] repoW
      = .ok ([entryA, entryB].filter (isOutdated repoW tipW.tree)) ∧
    (isOutdated repoW tipW.tree entryB = true
      ↔ treeGet tipW.tree entryB.dst_path ≠ some [66]) := by
  refine ⟨by decide, ?_, ?_⟩
  · exact (staleness_filter_exact [entryA, entryB] repoW tipW (by decide)
      (by
        intro e he
        rcases List.mem_cons.mp he with rfl | he2
        · exact ⟨upstreamW, by decide, by decide⟩
        rcases List.mem_cons.mp he2 with rfl | he3
        · exact ⟨upstreamW, by decide, by decide⟩
        · simp at he3)).1
  · exact (staleness_filter_exact [entryA, entryB] repoW tipW (by decide)
      (by
        intro e he
        rcases List.mem_cons.mp he with rfl | he2
        · exact ⟨upstreamW, by decide, by decide⟩
        rcases List.mem_cons.mp he2 with rfl | he3
        · exact ⟨upstreamW, by decide, by decide⟩
        · simp at he3)).2 entryB upstreamW [66] (by decide) (by decide)

/-- C1: a successful Commit Builder run on a group (non-empty, resolvable
ref, all source paths present, empty-tree commit resolvable, distinct
destination paths) advances the branch tip to a commit whose tree holds, at
each destination path of the group, exactly the upstream blob bytes of the
entry's source path at the group's ref, and at every other path exactly the
bytes (or absence) of the previous tip's tree. -/
theorem merge_frame_effect (repo : Repo) (es : List ExpectedUpstreamEntry)
    (e0 : ExpectedUpstreamEntry) (uc ec hc : Commit)
    (h0 : es.head? = some e0)
    (hu : resolveCommit repo e0.git_ref = some uc)
    (he : resolveCommit repo EMPTY_COMMIT_SHA = some ec)
    (het : ec.tree = [])
    (hh : repo.objects.lookup repo.head = some hc)
    (hfr : ∀ p ∈ repo.objects, p.1 < repo.next_id)
    (hs : ∀ e ∈ es, (treeGet uc.tree e.src_path).isSome)
    (hnd : (es.map (fun e => e.dst_path)).Nodup) :
    ∃ log repo' t',
      merge_files_and_create_commit es repo = .ok (log, repo') ∧
      tipTree repo' = some t' ∧
      (∀ e ∈ es, treeGet t' e.dst_path = treeGet uc.tree e.src_path) ∧
      (∀ p, (∀ e ∈ es, e.dst_path ≠ p) → treeGet t' p = treeGet hc.tree p) := by
  refine ⟨_, _, (secondCommitOf repo es e0 uc hc).tree,
    merge_spec repo es e0 uc ec hc h0 hu he het hh hs, ?_, ?_, ?_⟩
  · unfold tipTree
    rw [head_mergeRepoAfter repo es e0 uc hc hfr]
    rfl
  · intro e he'
    show treeGet (overlay hc.tree (importTree uc es)) e.dst_path = _
    rw [treeGet_overlay _ _ _ (importTree_keys_nodup _ _),
      importTree_get_mem uc es hnd e he']
    obtain ⟨b, hb⟩ := Option.isSome_iff_exists.mp (hs e he')
    rw [hb]
    rfl
  · intro p hp
    show treeGet (overlay hc.tree (importTree uc es)) p = _
    rw [treeGet_overlay _ _ _ (importTree_keys_nodup _ _),
      importTree_get_not_mem uc es hnd p hp]
    rfl

/-- Witness for C1 at the concrete two-entry group over `repoW`. -/
theorem merge_frame_effect_witness :
    resolveCommit repoW EMPTY_COMMIT_SHA = some emptyCommitW ∧
    ∃ log repo' t',
      merge_files_and_create_commit [entryA, entryB] repoW = .ok (log, repo') ∧
      tipTree repo' = some t' ∧
      (∀ e ∈ [entryA, entryB],
        treeGet t' e.dst_path = treeGet upstreamW.tree e.src_path) ∧
      (∀ p, (∀ e ∈ [entryA, entryB], e.dst_path ≠ p) →
        treeGet t' p = treeGet tipW.tree p) :=
  ⟨by decide,
   merge_frame_effect repoW [entryA, entryB] entryA upstreamW emptyCommitW tipW
     rfl (by decide) (by decide) rfl (by decide) (by decide) (by decide)
     (by decide)⟩

/-- C3: a successful Commit Builder run appends exactly two commits; the
first (import) commit's parent list is exactly the commit the group's ref
resolves to, and the merge commit's parent list is exactly the previous
branch tip followed by the import commit, with the tip advancing to the
merge commit. -/
theorem commit_parents_exact (repo : Repo) (es : List ExpectedUpstreamEntry)
    (e0 : ExpectedUpstreamEntry) (uc ec hc : Commit)
    (h0 : es.head? = some e0)
    (hu : resolveCommit repo e0.git_ref = some uc)
    (he : resolveCommit repo EMPTY_COMMIT_SHA = some ec)
    (het : ec.tree = [])
    (hh : repo.objects.lookup repo.head = some hc)
    (hs : ∀ e ∈ es, (treeGet uc.tree e.src_path).isSome) :
    ∃ log c1 c2,
      merge_files_and_create_commit es repo
        = .ok (log, { repo with
            objects := repo.objects
              ++ [(repo.next_id, c1), (repo.next_id + 1, c2)],
            next_id := repo.next_id + 2,
            head := repo.next_id + 1 }) ∧
      c1.id = repo.next_id ∧
      c1.parents = [uc.id] ∧
      c2.id = repo.next_id + 1 ∧
      c2.parents = [hc.id, c1.id] :=
  ⟨_, firstCommitOf repo es e0 uc, secondCommitOf repo es e0 uc hc,
    merge_spec repo es e0 uc ec hc h0 hu he het hh hs, rfl, rfl, rfl, rfl⟩

/-- Witness for C3 at the concrete two-entry group over `repoW`. -/
theorem commit_parents_exact_witness :
    resolveCommit repoW "jdk8" = some upstreamW ∧
    ∃ log c1 c2,
      merge_files_and_create_commit [entryA, entryB] repoW
        = .ok (log, { repoW with
            objects := repoW.objects ++ [(3, c1), (4, c2)],
            next_id := 5,
            head := 4 }) ∧
      c1.id = 3 ∧
      c1.parents = [upstreamW.id] ∧
      c2.id = 4 ∧
      c2.parents = [tipW.id, c1.id] :=
  ⟨by decide,
   commit_parents_exact repoW [entryA, entryB] entryA upstreamW emptyCommitW
     tipW rfl (by decide) (by decide) rfl (by decide) (by decide)⟩

/-- C7: the import commit's tree of a successful Commit Builder run contains
a blob at exactly the group's destination paths and at no other path, each
destination carrying the upstream bytes of the entry's source path, because
the first index is rooted at the empty tree of the commit `EMPTY_COMMIT_SHA`
resolves to. -/
theorem import_commit_only_group_files (repo : Repo)
    (es : List ExpectedUpstreamEntry) (e0 : ExpectedUpstreamEntry)
    (uc ec hc : Commit)
    (h0 : es.head? = some e0)
    (hu : resolveCommit repo e0.git_ref = some uc)
    (he : resolveCommit repo EMPTY_COMMIT_SHA = some ec)
    (het : ec.tree = [])
    (hh : repo.objects.lookup repo.head = some hc)
    (hs : ∀ e ∈ es, (treeGet uc.tree e.src_path).isSome)
    (hnd : (es.map (fun e => e.dst_path)).Nodup) :
    ∃ log c1 c2,
      merge_files_and_create_commit es repo
        = .ok (log, { repo with
            objects := repo.objects
              ++ [(repo.next_id, c1), (repo.next_id + 1, c2)],
            next_id := repo.next_id + 2,
            head := repo.next_id + 1 }) ∧
      (∀ p, (treeGet c1.tree p).isSome
        ↔ p ∈ es.map (fun e => e.dst_path)) ∧
      (∀ e ∈ es, treeGet c1.tree e.dst_path = treeGet uc.tree e.src_path) := by
  refine ⟨_, firstCommitOf repo es e0 uc, secondCommitOf repo es e0 uc hc,
    merge_spec repo es e0 uc ec hc h0 hu he het hh hs, ?_, ?_⟩
  · intro p
    show (treeGet (importTree uc es) p).isSome = true ↔ _
    constructor
    · intro hsome
      by_contra hp
      rw [importTree_get_not_mem uc es hnd p
        (fun e he' hep => hp (hep ▸ List.mem_map_of_mem _ he'))] at hsome
      cases hsome
    · intro hp
      obtain ⟨e, he', hep⟩ := List.mem_map.mp hp
      rw [← hep, importTree_get_mem uc es hnd e he']
      rfl
  · intro e he'
    show treeGet (importTree uc es) e.dst_path = _
    rw [importTree_get_mem uc es hnd e he']
    obtain ⟨b, hb⟩ := Option.isSome_iff_exists.mp (hs e he')
    rw [hb]
    rfl

/-- Witness for C7 at the concrete two-entry group over `repoW`. -/
theorem import_commit_only_group_files_witness :
    emptyCommitW.tree = [] ∧
    ∃ log c1 c2,
      merge_files_and_create_commit [entryA, entryB] repoW
        = .ok (log, { repoW with
            objects := repoW.objects ++ [(3, c1), (4, c2)],
            next_id := 5,
            head := 4 }) ∧
      (∀ p, (treeGet c1.tree p).isSome
        ↔ p ∈ [entryA, entryB].map (fun e => e.dst_path)) ∧
      (∀ e ∈ [entryA, entryB],
        treeGet c1.tree e.dst_path = treeGet upstreamW.tree e.src_path) :=
  ⟨rfl,
   import_commit_only_group_files repoW [entryA, entryB] entryA upstreamW
     emptyCommitW tipW rfl (by decide) (by decide) rfl (by decide) (by decide)
     (by decide)⟩

/-- C8 (amended): each of the two commit messages of a successful Commit
Builder run is its fixed template instantiated with a summary that is the
stem of the single file when the group has exactly one entry and the literal
"files" otherwise, the group's ref, and the destination paths listed in
entry order (not sorted); the templates carry the line naming the generating
tool and the "Test: N/A" trailer. -/
theorem commit_messages_spec (repo : Repo) (es : List ExpectedUpstreamEntry)
    (e0 : ExpectedUpstreamEntry) (uc ec hc : Commit)
    (h0 : es.head? = some e0)
    (hu : resolveCommit repo e0.git_ref = some uc)
    (he : resolveCommit repo EMPTY_COMMIT_SHA = some ec)
    (het : ec.tree = [])
    (hh : repo.objects.lookup repo.head = some hc)
    (hs : ∀ e ∈ es, (treeGet uc.tree e.src_path).isSome) :
    ∃ log c1 c2,
      merge_files_and_create_commit es repo
        = .ok (log, { repo with
            objects := repo.objects
              ++ [(repo.next_id, c1), (repo.next_id + 1, c2)],
            next_id := repo.next_id + 2,
            head := repo.next_id + 1 }) ∧
      c1.message
        = MSG_FIRST_COMMIT (summaryOf es e0) e0.git_ref (filesOf es) ∧
      c2.message
        = MSG_SECOND_COMMIT (summaryOf es e0) e0.git_ref (filesOf es) ∧
      filesOf es = String.intercalate "\n  " (es.map (fun e => e.dst_path)) ∧
      (es.length = 1 → summaryOf es e0 = pathStem e0.dst_path) ∧
      (es.length ≠ 1 → summaryOf es e0 = "files") := by
  refine ⟨_, firstCommitOf repo es e0 uc, secondCommitOf repo es e0 uc hc,
    merge_spec repo es e0 uc ec hc h0 hu he het hh hs, rfl, rfl, rfl, ?_, ?_⟩
  · intro h
    unfold summaryOf
    rw [if_pos (by simpa using h)]
  · intro h
    unfold summaryOf
    rw [if_neg (by simpa using h)]

/-- Witness for C8's amended statement at the concrete two-entry group. -/
theorem commit_messages_spec_witness :
    ([entryA, entryB] : List ExpectedUpstreamEntry).length ≠ 1 ∧
    ∃ log c1 c2,
      merge_files_and_create_commit [entryA, entryB] repoW
        = .ok (log, { repoW with
            objects := repoW.objects ++ [(3, c1), (4, c2)],
            next_id := 5,
            head := 4 }) ∧
      c1.message
        = MSG_FIRST_COMMIT (summaryOf [entryA, entryB] entryA) "jdk8"
            (filesOf [entryA, entryB]) ∧
      c2.message
        = MSG_SECOND_COMMIT (summaryOf [entryA, entryB] entryA) "jdk8"
            (filesOf [entryA, entryB]) ∧
      filesOf [entryA, entryB]
        = String.intercalate "\n  " ([entryA, entryB].map (fun e => e.dst_path)) ∧
      (([entryA, entryB] : List ExpectedUpstreamEntry).length = 1
        → summaryOf [entryA, entryB] entryA = pathStem entryA.dst_path) ∧
      (([entryA, entryB] : List ExpectedUpstreamEntry).length ≠ 1
        → summaryOf [entryA, entryB] entryA = "files") :=
  ⟨by decide,
   commit_messages_spec repoW [entryA, entryB] entryA upstreamW emptyCommitW
     tipW rfl (by decide) (by decide) rfl (by decide) (by decide)⟩

set_option maxRecDepth 8192 in
/-- Counterexample for C8 as stated: for the group whose destination paths
are `["b.java", "a.java"]`, neither commit message contains the destination
paths listed in sorted order (`"a.java\n  b.java"`); both contain the
entry-order listing `"b.java\n  a.java"` instead. -/
theorem commit_messages_sorted_cex :
    ((merge_files_and_create_commit [entryC8b, entryC8a] repoW).toOption.bind
        (fun p => (p.2.objects.lookup 3).map
          (fun c => strContainsSub "a.java\n  b.java" c.message))) = some false ∧
    ((merge_files_and_create_commit [entryC8b, entryC8a] repoW).toOption.bind
        (fun p => (p.2.objects.lookup 4).map
          (fun c => strContainsSub "a.java\n  b.java" c.message))) = some false ∧
    ((merge_files_and_create_commit [entryC8b, entryC8a] repoW).toOption.bind
        (fun p => (p.2.objects.lookup 3).map
          (fun c => strContainsSub "b.java\n  a.java" c.message))) = some true ∧
    ((merge_files_and_create_commit [entryC8b, entryC8a] repoW).toOption.bind
        (fun p => (p.2.objects.lookup 4).map
          (fun c => strContainsSub "b.java\n  a.java" c.message))) = some true := by
  refine ⟨by decide, by decide, by decide, by decide⟩

/-- C9 (amended): when a tracking branch is configured and its name is not
"aosp/expected_upstream", the orchestrator only prepends a warning print and
then behaves exactly as the run body, so the mismatch is not fatal; however,
when no tracking branch is configured at all, the `.name` access on the
`None` returned by `tracking_branch()` raises before anything else runs, so
that configuration aborts the run. -/
theorem tracking_mismatch_warns_and_continues
    (entries : List ExpectedUpstreamEntry) (repo : Repo) (tb : String)
    (ht : repo.tracking_branch = some tb)
    (hne : tb ≠ "aosp/expected_upstream") :
    create_commits entries repo
      = (create_commits_core entries repo).map
          (fun p => (Event.trackingWarning repo.active_branch_name tb :: p.1,
            p.2)) := by
  unfold create_commits
  rw [ht]
  simp only [if_neg hne]

/-- Witness for C9's amended statement: a repository tracking "aosp/other"
warns and otherwise runs the core body unchanged. -/
theorem tracking_mismatch_warns_witness :
    repoOtherTracking.tracking_branch = some "aosp/other" ∧
    create_commits [entryA] repoOtherTracking
      = (create_commits_core [entryA] repoOtherTracking).map
          (fun p => (Event.trackingWarning repoOtherTracking.active_branch_name
            "aosp/other" :: p.1, p.2)) :=
  ⟨rfl,
   tracking_mismatch_warns_and_continues [entryA] repoOtherTracking
     "aosp/other" rfl (by decide)⟩

/-- Counterexample for C9 as stated: on a branch configuration with no
tracking branch — a configuration whose tracking target is certainly not the
expected fixed name — the run aborts instead of continuing, because
`tracking_branch()` returns `None` and the `.name` access raises. -/
theorem tracking_none_aborts_cex :
    create_commits [entryA] repoNoTracking
      = .error (RunError.trackingNone, repoNoTracking) := by
  rfl

/-- C10: the Commit Builder presupposes that `EMPTY_COMMIT_SHA` resolves in
the object database; when it does not, the builder fails with the original
repository state untouched, i.e. before any commit is created for the group;
and whenever it does resolve (to a commit `ec`), the fresh-index
construction succeeds and the run continues from the index rooted at
`ec.tree`. -/
theorem empty_commit_sha_precondition (repo : Repo)
    (es : List ExpectedUpstreamEntry) :
    (resolveCommit repo EMPTY_COMMIT_SHA = none →
      ∃ err, merge_files_and_create_commit es repo = .error (err, repo)) ∧
    (∀ e0 tl uc ec, es = e0 :: tl →
      resolveCommit repo e0.git_ref = some uc →
      resolveCommit repo EMPTY_COMMIT_SHA = some ec →
      merge_files_and_create_commit es repo
        = mergeFromIndex es e0 uc ec.tree repo) := by
  constructor
  · intro hne
    cases es with
    | nil => exact ⟨.emptyGroup, rfl⟩
    | cons e0 tl =>
      cases hu : resolveCommit repo e0.git_ref with
      | none =>
        exact ⟨.badRef e0.git_ref, by simp [merge_files_and_create_commit, hu]⟩
      | some uc =>
        exact ⟨.badEmptySha,
          by simp [merge_files_and_create_commit, hu, hne]⟩
  · intro e0 tl uc ec hes hu hec
    subst hes
    simp [merge_files_and_create_commit, hu, hec]

/-- Witness for C10: with the sha unresolvable the builder errors leaving
the repository unchanged; with it resolvable the run continues from the
empty tree. -/
theorem empty_commit_sha_precondition_witness :
    resolveCommit repoNoEmpty EMPTY_COMMIT_SHA = none ∧
    (∃ err, merge_files_and_create_commit [entryA] repoNoEmpty
      = .error (err, repoNoEmpty)) ∧
    merge_files_and_create_commit [entryA] repoW
      = mergeFromIndex [entryA] entryA upstreamW emptyCommitW.tree repoW :=
  ⟨by decide,
   (empty_commit_sha_precondition repoNoEmpty [entryA]).1 (by decide),
   (empty_commit_sha_precondition repoW [entryA]).2 entryA [] upstreamW
     emptyCommitW rfl (by decide) (by decide)⟩

/-- C6: when some entry's ref fails to resolve or its source path is absent
from the resolved upstream tree, the Staleness Filter errors with a failing
entry, and the whole run errors with that same entry and the repository
state completely unchanged — no commit is created for any group, because
filtering precedes all commit construction. -/
theorem validation_error_aborts (entries : List ExpectedUpstreamEntry)
    (repo : Repo) (tb : String) (hc : Commit) (e : ExpectedUpstreamEntry)
    (ht : repo.tracking_branch = some tb)
    (hh : repo.objects.lookup repo.head = some hc)
    (hmem : e ∈ entries)
    (hbad : resolveCommit repo e.git_ref = none
      ∨ ∃ c, resolveCommit repo e.git_ref = some c
          ∧ treeGet c.tree e.src_path = none) :
    ∃ e', validate_and_remove_updated_entries entries repo
        = .error (ValidateErr.badEntry e') ∧
      create_commits entries repo = .error (RunError.entryError e', repo) := by
  obtain ⟨e', he'⟩ := validateLoop_error_of_bad repo hc.tree entries e hmem hbad
  have hv : validate_and_remove_updated_entries entries repo
      = .error (.badEntry e') := by
    unfold validate_and_remove_updated_entries
    rw [hh]
    exact he'
  refine ⟨e', hv, ?_⟩
  simp only [create_commits, ht]
  by_cases htb : tb = "aosp/expected_upstream"
  · rw [if_pos htb]
    simp [create_commits_core, hv]
  · rw [if_neg htb]
    simp [create_commits_core, hv, Except.map]

/-- Witness for C6: an entry whose source path is missing upstream makes the
run abort with the repository unchanged. -/
theorem validation_error_aborts_witness :
    entryBadSrc ∈ [entryA, entryBadSrc] ∧
    ∃ e', validate_and_remove_updated_entries [entryA, entryBadSrc] repoW
        = .error (ValidateErr.badEntry e') ∧
      create_commits [entryA, entryBadSrc] repoW
        = .error (RunError.entryError e', repoW) :=
  ⟨by decide,
   validation_error_aborts [entryA, entryBadSrc] repoW "aosp/expected_upstream"
     tipW entryBadSrc rfl (by decide) (by decide)
     (Or.inr ⟨upstreamW, by decide, by decide⟩)⟩

/-- C5: under a well-formed manifest (pairwise distinct destination paths)
and repository (resolvable refs and source paths, empty-tree commit
available, fresh commit ids), a run of the tool completes; afterwards every
entry's destination content at the new tip equals its upstream source
content, so the Staleness Filter of a second run returns the empty list and
the second run returns with the repository state unchanged — zero new
commits. -/
theorem second_run_creates_nothing (entries : List ExpectedUpstreamEntry)
    (repo : Repo) (tb : String) (ec hc : Commit)
    (ht : repo.tracking_branch = some tb)
    (he : resolveCommit repo EMPTY_COMMIT_SHA = some ec)
    (het : ec.tree = [])
    (hh : repo.objects.lookup repo.head = some hc)
    (hfr : ∀ p ∈ repo.objects, p.1 < repo.next_id)
    (hres : ∀ e ∈ entries, ∃ c, resolveCommit repo e.git_ref = some c
      ∧ (treeGet c.tree e.src_path).isSome)
    (hnd : (entries.map (fun e => e.dst_path)).Nodup) :
    ∃ log repo₁,
      create_commits entries repo = .ok (log, repo₁) ∧
      (∀ e ∈ entries, ∀ (c : Commit) (b : Bytes),
        resolveCommit repo e.git_ref = some c →
        treeGet c.tree e.src_path = some b →
        ∃ t, tipTree repo₁ = some t ∧ treeGet t e.dst_path = some b) ∧
      validate_and_remove_updated_entries entries repo₁ = .ok [] ∧
      ∃ log', create_commits entries repo₁ = .ok (log', repo₁) := by
  have hval := validate_eq_filter entries repo hc hh hres
  have hcoreAll : ∃ log1 repo₁,
      create_commits_core entries repo = .ok (log1, repo₁) ∧
      (∀ e ∈ entries, ∀ (c : Commit) (b : Bytes),
        resolveCommit repo e.git_ref = some c →
        treeGet c.tree e.src_path = some b →
        ∃ t, tipTree repo₁ = some t ∧ treeGet t e.dst_path = some b) ∧
      repo₁.tracking_branch = repo.tracking_branch ∧
      validate_and_remove_updated_entries entries repo₁ = .ok [] ∧
      create_commits_core entries repo₁
        = .ok ([Event.readingManifest, Event.noUpdate], repo₁) := by
    by_cases hout : entries.filter (isOutdated repo hc.tree) = []
    · refine ⟨[Event.readingManifest, Event.noUpdate], repo,
        by simp [create_commits_core, hval, hout], ?_, rfl, ?_, ?_⟩
      · intro e he' c b hcr hsr
        refine ⟨hc.tree, by simp [tipTree, hh], ?_⟩
        have hfalse : isOutdated repo hc.tree e = false :=
          Bool.eq_false_iff.mpr (List.filter_eq_nil_iff.mp hout e he')
        simp only [isOutdated, hcr, hsr] at hfalse
        cases hdst : treeGet hc.tree e.dst_path with
        | none =>
          simp only [hdst] at hfalse
          cases hfalse
        | some db =>
          simp only [hdst] at hfalse
          have hbd : b = db := by
            by_contra hbd
            rw [decide_eq_true hbd] at hfalse
            cases hfalse
          rw [hbd]
      · rw [hval, hout]
      · simp [create_commits_core, hval, hout]
    · have hperm : ((partition_entries_by_ref
            (entries.filter (isOutdated repo hc.tree))).flatten).Perm
          (entries.filter (isOutdated repo hc.tree)) :=
        partition_flatten_perm _
      have hndout : ((entries.filter (isOutdated repo hc.tree)).map
          (fun e => e.dst_path)).Nodup :=
        ((List.filter_sublist entries).map _).nodup hnd
      have hndflat : (((partition_entries_by_ref
            (entries.filter (isOutdated repo hc.tree))).flatten).map
          (fun e => e.dst_path)).Nodup :=
        ((hperm.map _).symm).nodup hndout
      obtain ⟨log', repoF, hcF, hpg, hfrF, hpresF, hhF, htrF, hbaseF⟩ :=
        processGroups_spec repo ec he het
          (partition_entries_by_ref (entries.filter (isOutdated repo hc.tree)))
          repo
          [Event.readingManifest, Event.willUpdate
            ((entries.filter (isOutdated repo hc.tree)).map
              (fun e => e.dst_path))]
          hc hc.tree hfr (fun r c h => h) hh (fun p => rfl)
          (partition_group_ne_nil _) (partition_group_same_ref _)
          (fun e hef => hres e
            ((List.mem_filter.mp (hperm.mem_iff.mp hef)).1))
          hndflat
      have hcore1 : create_commits_core entries repo = .ok (log', repoF) := by
        simp only [create_commits_core, hval]
        rw [if_neg (by
          intro hemp
          exact hout (List.isEmpty_iff.mp hemp))]
        exact hpg
      have hcontent : ∀ e ∈ entries, ∀ (c : Commit) (b : Bytes),
          resolveCommit repo e.git_ref = some c →
          treeGet c.tree e.src_path = some b →
          ∃ t, tipTree repoF = some t ∧ treeGet t e.dst_path = some b := by
        intro e he' c b hcr hsr
        refine ⟨hcF.tree, by simp [tipTree, hhF], ?_⟩
        rw [hbaseF e.dst_path]
        cases houte : isOutdated repo hc.tree e with
        | true =>
          have hein : e ∈ (partition_entries_by_ref
              (entries.filter (isOutdated repo hc.tree))).flatten :=
            hperm.mem_iff.mpr (List.mem_filter.mpr ⟨he', houte⟩)
          rw [applyWrites_get _ _ hndflat, find?_dst_self _ hndflat e hein]
          show some (entryBytes repo e) = some b
          unfold entryBytes
          rw [hcr]
          simp only [Option.some_bind]
          rw [hsr]
          rfl
        | false =>
          have hnone : ((partition_entries_by_ref
              (entries.filter (isOutdated repo hc.tree))).flatten).find?
                (fun x => x.dst_path == e.dst_path) = none := by
            rw [List.find?_eq_none]
            intro x hx hxe
            rw [beq_iff_eq] at hxe
            have hxout : x ∈ entries.filter (isOutdated repo hc.tree) :=
              hperm.mem_iff.mp hx
            have hxent : x ∈ entries := (List.mem_filter.mp hxout).1
            have hxeq : x = e := List.inj_on_of_nodup_map hnd hxent he' hxe
            rw [hxeq] at hxout
            have hxe2 := (List.mem_filter.mp hxout).2
            rw [houte] at hxe2
            cases hxe2
          rw [applyWrites_get _ _ hndflat, hnone]
          show treeGet hc.tree e.dst_path = some b
          simp only [isOutdated, hcr, hsr] at houte
          cases hdst : treeGet hc.tree e.dst_path with
          | none =>
            simp only [hdst] at houte
            cases houte
          | some db =>
            simp only [hdst] at houte
            have hbd : b = db := by
              by_contra hbd
              rw [decide_eq_true hbd] at houte
              cases houte
            rw [hbd]
      have hres1 : ∀ e ∈ entries, ∃ c, resolveCommit repoF e.git_ref = some c
          ∧ (treeGet c.tree e.src_path).isSome := by
        intro e he'
        obtain ⟨c, hcr, hcs⟩ := hres e he'
        exact ⟨c, hpresF _ _ hcr, hcs⟩
      have hval2 := validate_eq_filter entries repoF hcF hhF hres1
      have hfilter2 : entries.filter (isOutdated repoF hcF.tree) = [] := by
        rw [List.filter_eq_nil_iff]
        intro e he' htrue
        obtain ⟨c, hcr, hcs⟩ := hres e he'
        obtain ⟨b, hb⟩ := Option.isSome_iff_exists.mp hcs
        obtain ⟨t, htip, hget⟩ := hcontent e he' c b hcr hb
        have ht' : t = hcF.tree := by
          unfold tipTree at htip
          rw [hhF] at htip
          simpa using htip.symm
        rw [ht'] at hget
        have hcrF : resolveCommit repoF e.git_ref = some c := hpresF _ _ hcr
        simp only [isOutdated, hcrF, hb, hget] at htrue
        rw [decide_eq_false (fun h => h rfl)] at htrue
        cases htrue
      have hval2' : validate_and_remove_updated_entries entries repoF
          = .ok [] := by
        rw [hval2, hfilter2]
      exact ⟨log', repoF, hcore1, hcontent, htrF, hval2',
        by simp [create_commits_core, hval2']⟩
  obtain ⟨log1, repo₁, hc1, hcont, htr1, hv2, hc2⟩ := hcoreAll
  have ht1 : repo₁.tracking_branch = some tb := by rw [htr1, ht]
  by_cases htb : tb = "aosp/expected_upstream"
  · refine ⟨log1, repo₁, ?_, hcont, hv2,
      ⟨[Event.readingManifest, Event.noUpdate], ?_⟩⟩
    · simp only [create_commits, ht, if_pos htb]
      exact hc1
    · simp only [create_commits, ht1, if_pos htb]
      exact hc2
  · refine ⟨Event.trackingWarning repo.active_branch_name tb :: log1, repo₁,
      ?_, hcont, hv2,
      ⟨Event.trackingWarning repo₁.active_branch_name tb
        :: [Event.readingManifest, Event.noUpdate], ?_⟩⟩
    · simp only [create_commits, ht, if_neg htb, hc1]
      rfl
    · simp only [create_commits, ht1, if_neg htb, hc2]
      rfl

/-- Witness for C5: running on `repoW` (both entries stale) completes, after
which the filter returns the empty list and a second run leaves the
repository unchanged. -/
theorem second_run_creates_nothing_witness :
    ([entryA, entryB].map (fun e => e.dst_path)).Nodup ∧
    ∃ log repo₁,
      create_commits [entryA, entryB] repoW = .ok (log, repo₁) ∧
      (∀ e ∈ [entryA, entryB], ∀ (c : Commit) (b : Bytes),
        resolveCommit repoW e.git_ref = some c →
        treeGet c.tree e.src_path = some b →
        ∃ t, tipTree repo₁ = some t ∧ treeGet t e.dst_path = some b) ∧
      validate_and_remove_updated_entries [entryA, entryB] repo₁ = .ok [] ∧
      ∃ log', create_commits [entryA, entryB] repo₁ = .ok (log', repo₁) :=
  ⟨by decide,
   second_run_creates_nothing [entryA, entryB] repoW "aosp/expected_upstream"
     emptyCommitW tipW rfl (by decide) rfl (by decide) (by decide)
     (by
       intro e he
       rcases List.mem_cons.mp he with rfl | he2
       · exact ⟨upstreamW, by decide, by decide⟩
       rcases List.mem_cons.mp he2 with rfl | he3
       · exact ⟨upstreamW, by decide, by decide⟩
       · simp at he3)
     (by decide)⟩
